import Mathlib

/-!
Verification development for the ArchMap repository.

The repository ships only the React frontend (src/frontend/src/App.tsx);
the History Analysis Engine described by the specification (backend/app)
is not part of the source tree.  The engine is therefore modelled from the
specification text, while the frontend component is embedded directly from
App.tsx.
-/

namespace ArchMap

/-- Modelled from the spec: the configuration surface of the missing engine
(decay half-life, ownership threshold for bus factor, large-commit ceiling
for coupling exclusion, rename-similarity threshold). Timestamps and the
half-life are measured in days. -/
structure Config where
  halfLife : Nat
  threshold : ℚ
  largeCommitCeiling : Nat
  renameSimilarity : ℚ
deriving DecidableEq

/-- Modelled from the spec: default policy values (half-life 180 days,
ownership threshold 50 percent, large-commit ceiling 50 files). The
rename-similarity default is not fixed by the spec. -/
def defaultConfig : Config :=
  { halfLife := 180, threshold := 1/2, largeCommitCeiling := 50, renameSimilarity := 1/2 }

/-- Modelled from the spec: the change kind of a `FileChange`; a rename
carries the prior path so history transfers to the new path. -/
inductive ChangeKind where
  | added
  | modified
  | deleted
  | renamedFrom (priorPath : String)
deriving DecidableEq

/-- Modelled from the spec: a normalized `FileChange` record of the missing
Diff Normalizer (post-rename canonical path, change kind, line counts). -/
structure FileChange where
  path : String
  kind : ChangeKind
  linesAdded : Nat
  linesRemoved : Nat
deriving DecidableEq

/-- Modelled from the spec: a `Commit` as consumed by the missing engine
(content-hash identifier, resolved author identity, authored timestamp,
ordered file changes, parent identifiers). -/
structure Commit where
  id : String
  author : String
  timestamp : Nat
  changes : List FileChange
  parents : List String
deriving DecidableEq

/-- Modelled from the spec: an `OwnershipEntry` (file path, author, weighted
contribution score, earliest contribution timestamp used for tie-breaking,
last-touched timestamp). -/
structure OwnershipEntry where
  file : String
  author : String
  score : ℚ
  firstContrib : Nat
  lastTouched : Nat
deriving DecidableEq

/-- Modelled from the spec: a `CouplingEdge` (unordered file pair stored with
fileA lexicographically below fileB, co-change count, last co-change
timestamp). -/
structure CouplingEdge where
  fileA : String
  fileB : String
  weight : Nat
  lastCoChange : Nat
deriving DecidableEq

/-- Modelled from the spec: a `BusFactorResult` (scope, authors ranked by
contribution, minimal covering author count for the threshold). -/
structure BusFactorResult where
  scope : String
  rankedAuthors : List String
  factor : Nat
deriving DecidableEq

/-- Modelled from the spec: a `Checkpoint` (repository identifier, last
processed commit identifier, processed commit count, run timestamp). -/
structure Checkpoint where
  repositoryId : String
  lastCommit : String
  processedCount : Nat
  runTimestamp : Nat
deriving DecidableEq

/-- Modelled from the spec: the error taxonomy of the missing engine. -/
inductive EngineError where
  | HistoryUnavailable
  | CheckpointConflict
  | StorageApplyFailure
  | MalformedCommit
deriving DecidableEq

/-- Modelled from the spec: the in-run accumulator state (ownership store,
coupling store, files flagged inactive by deletion). -/
structure EngineState where
  ownership : List OwnershipEntry
  coupling : List CouplingEdge
  inactive : List String
deriving DecidableEq

/-- Modelled from the spec: the durable state owned by the storage
collaborator (ownership, coupling, bus-factor results, checkpoint). -/
structure PersistedState where
  ownership : List OwnershipEntry
  coupling : List CouplingEdge
  busFactors : List BusFactorResult
  inactive : List String
  checkpoint : Option Checkpoint
deriving DecidableEq

/-- Modelled from the spec: exponential time decay with a configured
half-life — the weight of a contribution is halved after each elapsed half-life
(elapsed time measured in whole half-lives). -/
def decay (halfLife dt : Nat) : ℚ :=
  (1/2 : ℚ) ^ (dt / halfLife)

/-- Modelled from the spec: the contribution weight of one `FileChange`,
`(lines_added + lines_removed) * decay(now - commit_time)`. -/
def contributionWeight (cfg : Config) (now t : Nat) (fc : FileChange) : ℚ :=
  ((fc.linesAdded : ℚ) + (fc.linesRemoved : ℚ)) * decay cfg.halfLife (now - t)

/-- Modelled from the spec: add a weighted contribution to the (file, author)
ownership record, creating the record on first contribution. -/
def addScore : List OwnershipEntry → String → String → ℚ → Nat → List OwnershipEntry
  | [], f, a, w, t => [⟨f, a, w, t, t⟩]
  | e :: rest, f, a, w, t =>
      if e.file = f ∧ e.author = a then
        { e with score := e.score + w, lastTouched := max e.lastTouched t } :: rest
      else
        e :: addScore rest f a w t

/-- Modelled from the spec: merge one ownership record into a store, adding
scores and combining timestamps when the (file, author) key already exists. -/
def insertEntry : List OwnershipEntry → OwnershipEntry → List OwnershipEntry
  | [], e => [e]
  | x :: rest, e =>
      if x.file = e.file ∧ x.author = e.author then
        { x with score := x.score + e.score,
                 firstContrib := min x.firstContrib e.firstContrib,
                 lastTouched := max x.lastTouched e.lastTouched } :: rest
      else
        x :: insertEntry rest e

/-- Modelled from the spec: on `renamed-from`, move the full ownership mapping of the prior path to the new path. -/
def renameMove (o : List OwnershipEntry) (oldP newP : String) : List OwnershipEntry :=
  let moved := (o.filter (fun e => e.file == oldP)).map (fun e => { e with file := newP })
  let rest := o.filter (fun e => e.file != oldP)
  List.foldl insertEntry rest moved

/-- Modelled from the spec: the ownership store after the rename transfer of
a change but before the delta of the change itself is applied. -/
def preRenamed (o : List OwnershipEntry) (fc : FileChange) : List OwnershipEntry :=
  match fc.kind with
  | ChangeKind.renamedFrom priorPath => renameMove o priorPath fc.path
  | _ => o

/-- Modelled from the spec: how the Ownership Accumulator handles one
`FileChange` (rename transfer first, then the weighted delta). -/
def applyChangeOwn (cfg : Config) (now : Nat) (author : String) (t : Nat)
    (o : List OwnershipEntry) (fc : FileChange) : List OwnershipEntry :=
  addScore (preRenamed o fc) fc.path author (contributionWeight cfg now t fc) t

/-- Modelled from the spec: apply every `FileChange` of a commit to the
ownership store. -/
def applyCommitOwnership (cfg : Config) (now : Nat) (o : List OwnershipEntry)
    (c : Commit) : List OwnershipEntry :=
  c.changes.foldl (fun acc fc => applyChangeOwn cfg now c.author c.timestamp acc fc) o

/-- The weighted score recorded for a (file, author) pair, zero when no
record exists. -/
def ownScore : List OwnershipEntry → String → String → ℚ
  | [], _, _ => 0
  | e :: rest, f, a => if e.file = f ∧ e.author = a then e.score else ownScore rest f a

/-- Modelled from the spec: the canonical orientation of an unordered file
pair (smaller path first). -/
def canonPair (a b : String) : String × String :=
  if a < b then (a, b) else (b, a)

/-- All unordered pairs of distinct positions of a list, each in canonical
orientation. -/
def allPairs : List String → List (String × String)
  | [] => []
  | x :: xs => xs.map (canonPair x) ++ allPairs xs

/-- Modelled from the spec: the set of file paths in the change set of a commit. -/
def commitFiles (c : Commit) : List String :=
  (c.changes.map FileChange.path).dedup

/-- Modelled from the spec: increment the weight of a coupling edge by one and
refresh its last co-change timestamp, creating the edge on first co-change. -/
def bumpEdge : List CouplingEdge → String × String → Nat → List CouplingEdge
  | [], q, t => [⟨q.1, q.2, 1, t⟩]
  | e :: rest, q, t =>
      if e.fileA = q.1 ∧ e.fileB = q.2 then
        { e with weight := e.weight + 1, lastCoChange := t } :: rest
      else
        e :: bumpEdge rest q t

/-- The co-change weight stored for a canonical pair, zero when no edge
exists. -/
def edgeWeightPair : List CouplingEdge → String × String → Nat
  | [], _ => 0
  | e :: rest, q => if e.fileA = q.1 ∧ e.fileB = q.2 then e.weight else edgeWeightPair rest q

/-- The co-change weight of an unordered file pair. -/
def edgeWeight (es : List CouplingEdge) (a b : String) : Nat :=
  edgeWeightPair es (canonPair a b)

/-- Modelled from the spec: how the Coupling Graph Builder handles one
commit — commits with a single changed file contribute no edges and commits
above the large-commit ceiling are excluded entirely; otherwise every
unordered pair of distinct files in the change set is incremented by one. -/
def applyCommitCoupling (cfg : Config) (es : List CouplingEdge) (c : Commit) :
    List CouplingEdge :=
  if 2 ≤ (commitFiles c).length ∧ (commitFiles c).length ≤ cfg.largeCommitCeiling then
    (allPairs (commitFiles c)).foldl (fun acc q => bumpEdge acc q c.timestamp) es
  else es

/-- Modelled from the spec: deletion flags the file inactive without erasing
its ownership records. -/
def applyCommitInactive (inact : List String) (c : Commit) : List String :=
  c.changes.foldl
    (fun acc fc => match fc.kind with | ChangeKind.deleted => fc.path :: acc | _ => acc)
    inact

/-- Modelled from the spec: feed one commit to the Ownership Accumulator and
the Coupling Graph Builder (independent consumers of the same stream). -/
def stepCommit (cfg : Config) (now : Nat) (s : EngineState) (c : Commit) : EngineState :=
  { ownership := applyCommitOwnership cfg now s.ownership c
    coupling := applyCommitCoupling cfg s.coupling c
    inactive := applyCommitInactive s.inactive c }

/-- Modelled from the spec: the empty accumulator state of a from-scratch
run. -/
def initState : EngineState := ⟨[], [], []⟩

/-- Modelled from the spec: process an oldest-first commit sequence through
both accumulators. -/
def processCommits (cfg : Config) (now : Nat) (s : EngineState) (cs : List Commit) :
    EngineState :=
  cs.foldl (stepCommit cfg now) s

/-- The ownership records of one file scope. -/
def fileEntries (o : List OwnershipEntry) (f : String) : List OwnershipEntry :=
  o.filter (fun e => e.file == f)

/-- Modelled from the spec: the ranking order of the Bus-Factor Calculator —
descending score, ties broken by earliest contribution timestamp. -/
def rankRel (a b : OwnershipEntry) : Prop :=
  b.score < a.score ∨ (a.score = b.score ∧ a.firstContrib ≤ b.firstContrib)

instance : DecidableRel rankRel := fun a b => by
  unfold rankRel; infer_instance

instance : IsTotal OwnershipEntry rankRel :=
  ⟨fun a b => by
    unfold rankRel
    rcases lt_trichotomy a.score b.score with h | h | h
    · exact Or.inr (Or.inl h)
    · rcases Nat.le_total a.firstContrib b.firstContrib with h2 | h2
      · exact Or.inl (Or.inr ⟨h, h2⟩)
      · exact Or.inr (Or.inr ⟨h.symm, h2⟩)
    · exact Or.inl (Or.inl h)⟩

instance : IsTrans OwnershipEntry rankRel :=
  ⟨fun a b c hab hbc => by
    unfold rankRel at *
    rcases hab with h1 | ⟨h1, h1t⟩
    · rcases hbc with h2 | ⟨h2, h2t⟩
      · exact Or.inl (lt_trans h2 h1)
      · exact Or.inl (h2 ▸ h1)
    · rcases hbc with h2 | ⟨h2, h2t⟩
      · exact Or.inl (h1 ▸ h2)
      · exact Or.inr ⟨h1.trans h2, le_trans h1t h2t⟩⟩

/-- Modelled from the spec: sort ownership records by descending score with
the earliest-contribution tie-break (a stable sort, so output is
deterministic). -/
def rank (es : List OwnershipEntry) : List OwnershipEntry :=
  List.insertionSort rankRel es

/-- Modelled from the spec: the smallest count of leading contributors whose
cumulative score meets or exceeds the required amount. -/
def coverCount : ℚ → List ℚ → Nat
  | _, [] => 0
  | need, s :: rest => if need ≤ s then 1 else 1 + coverCount (need - s) rest

/-- Modelled from the spec: the bus factor of a scope — the smallest count of
top-ranked contributors whose cumulative score share meets or exceeds the
configured ownership threshold. -/
def busFactorOf (threshold : ℚ) (es : List OwnershipEntry) : Nat :=
  coverCount (threshold * ((es.map OwnershipEntry.score).sum)) ((rank es).map OwnershipEntry.score)

/-- Modelled from the spec: the bus factor of one file scope. -/
def busFactor (cfg : Config) (o : List OwnershipEntry) (f : String) : Nat :=
  busFactorOf cfg.threshold (fileEntries o f)

/-- The distinct file paths present in an ownership store. -/
def ownFiles (o : List OwnershipEntry) : List String :=
  (o.map OwnershipEntry.file).dedup

/-- Modelled from the spec: the per-file `BusFactorResult` records derived
from the ownership state once both accumulators are stable. -/
def busFactorResults (cfg : Config) (o : List OwnershipEntry) : List BusFactorResult :=
  (ownFiles o).map (fun f =>
    { scope := f
      rankedAuthors := (rank (fileEntries o f)).map OwnershipEntry.author
      factor := busFactor cfg o f })

/-- Modelled from the spec: the scan of the Commit Stream Walker for the
checkpoint commit — the commits strictly after the first occurrence of the
given identifier, or none when the identifier is unreachable. -/
def walkAfter : List Commit → String → Option (List Commit)
  | [], _ => none
  | c :: rest, cid => if c.id = cid then some rest else walkAfter rest cid

/-- Modelled from the spec: the Commit Stream Walker — full history when no
checkpoint exists, the not-yet-processed suffix when the checkpoint commit
resolves, and `HistoryUnavailable` when it does not. -/
def walkFrom (history : List Commit) : Option String → Except EngineError (List Commit)
  | none => Except.ok history
  | some cid =>
      match walkAfter history cid with
      | none => Except.error EngineError.HistoryUnavailable
      | some rest => Except.ok rest

/-- Modelled from the spec: advance the checkpoint past the newly processed
commits; an empty batch leaves the checkpoint as it was. -/
def advanceCheckpoint (repo : String) (now : Nat) (prev : Option Checkpoint)
    (news : List Commit) : Option Checkpoint :=
  match news.getLast? with
  | none => prev
  | some c =>
      some ⟨repo, c.id,
        (match prev with | some cp => cp.processedCount | none => 0) + news.length, now⟩

/-- Modelled from the spec: the empty persisted state before any run. -/
def emptyPersisted : PersistedState := ⟨[], [], [], [], none⟩

/-- Modelled from the spec: one engine run — resolve the resume point, walk
the new commits through both accumulators, derive bus-factor results, and
advance the checkpoint; a walker failure surfaces the error to the caller
with the persisted state untouched and no retry. -/
def runEngine (repo : String) (cfg : Config) (now : Nat) (history : List Commit)
    (p : PersistedState) : PersistedState × Option EngineError :=
  match walkFrom history (p.checkpoint.map Checkpoint.lastCommit) with
  | Except.error e => (p, some e)
  | Except.ok news =>
      let s := processCommits cfg now ⟨p.ownership, p.coupling, p.inactive⟩ news
      ({ ownership := s.ownership
         coupling := s.coupling
         busFactors := busFactorResults cfg s.ownership
         inactive := s.inactive
         checkpoint := advanceCheckpoint repo now p.checkpoint news }, none)

/-! Frontend embedding (src/frontend/src/App.tsx). -/

/-- Embedding of App.tsx line 3: the module-level base URL,
reading VITE_API_URL from the build environment with a fallback default.
The input is the value of the VITE_API_URL build variable (`none` when the
env object or the variable is absent); a present empty string is the only
falsy string in JavaScript, so it also falls back to the default. -/
def apiBase (envVar : Option String) : String :=
  match envVar with
  | some v => if v = "" then "http://localhost:8000" else v
  | none => "http://localhost:8000"

/-- The three URL slots the App component renders (backend display, health
fetch target, API-docs link). -/
structure RenderView where
  backendUrl : String
  healthTarget : String
  docsLink : String
deriving DecidableEq

/-- Embedding of the render output of the App component as a function of the
build-time env variable: `apiUrl` state is initialized from `apiBase` and
never updated, the fetch targets apiBase plus "/health", and the docs link
is apiBase plus "/docs". -/
def renderApp (envVar : Option String) : RenderView :=
  { backendUrl := apiBase envVar
    healthTarget := apiBase envVar ++ "/health"
    docsLink := apiBase envVar ++ "/docs" }

/-- A decimal digit character. -/
def digitChar : Nat → Char
  | 0 => '0' | 1 => '1' | 2 => '2' | 3 => '3' | 4 => '4'
  | 5 => '5' | 6 => '6' | 7 => '7' | 8 => '8' | _ => '9'

/-- Decimal digits of a natural number, most significant first. -/
def natDigits (n : Nat) : List Char :=
  if n < 10 then [digitChar n]
  else natDigits (n / 10) ++ [digitChar (n % 10)]
decreasing_by exact Nat.div_lt_self (by omega) (by omega)

/-- Decimal rendering of an integer, as produced by JavaScript number
formatting. -/
def intRepr : Int → List Char
  | Int.ofNat n => natDigits n
  | Int.negSucc n => '-' :: natDigits (n + 1)

/-- Decimal string of a natural number (the template literal form of
`r.status`). -/
def natStr (n : Nat) : String := String.mk (natDigits n)

/-- A JavaScript JSON value, as returned by `r.json()`. -/
inductive JsVal where
  | null
  | bool (b : Bool)
  | num (n : Int)
  | str (s : String)
  | arr (xs : List JsVal)
  | obj (fields : List (String × JsVal))

/-- JSON string escaping for one character. -/
def escapeChar (c : Char) : List Char :=
  if c = '"' then ['\\', '"'] else if c = '\\' then ['\\', '\\'] else [c]

/-- JSON string escaping for a whole string. -/
def escapeStr (s : String) : List Char :=
  s.data.foldr (fun c acc => escapeChar c ++ acc) []

mutual

/-- `JSON.stringify` on a JSON value. -/
def stringify : JsVal → String
  | JsVal.null => "null"
  | JsVal.bool true => "true"
  | JsVal.bool false => "false"
  | JsVal.num n => String.mk (intRepr n)
  | JsVal.str s => String.mk ('"' :: (escapeStr s ++ ['"']))
  | JsVal.arr xs => "[" ++ stringifyArr xs ++ "]"
  | JsVal.obj fs => "\x7b" ++ stringifyObj fs ++ "\x7d"

/-- `JSON.stringify` on the elements of an array. -/
def stringifyArr : List JsVal → String
  | [] => ""
  | [x] => stringify x
  | x :: y :: xs => stringify x ++ "," ++ stringifyArr (y :: xs)

/-- `JSON.stringify` on the fields of an object. -/
def stringifyObj : List (String × JsVal) → String
  | [] => ""
  | [(k, v)] => String.mk ('"' :: (escapeStr k ++ ['"'])) ++ ":" ++ stringify v
  | (k, v) :: y :: xs =>
      String.mk ('"' :: (escapeStr k ++ ['"'])) ++ ":" ++ stringify v ++ "," ++
        stringifyObj (y :: xs)

end

/-- The observable ways the `/health` fetch promise can settle: the fetch
itself rejects (the argument is the `String(e)` form of the reason), or a
response arrives with an `ok` flag, a numeric status, and a JSON body whose
parse either fails (with the `String(e)` form of the reason) or yields a
value. -/
inductive FetchOutcome where
  | reject (e : String)
  | resolve (ok : Bool) (statusCode : Nat) (body : Except String JsVal)

/-- Embedding of the `then` callback of App.tsx lines 11 to 15: when `r.ok`
is false it throws `new Error` on the status code (whose `String(e)` form is
"Error: " followed by the code) before the body is parsed; otherwise a body
parse rejection propagates, and a parsed value is serialized with
`JSON.stringify` for `setStatus`. -/
def thenHandler (ok : Bool) (code : Nat) (body : Except String JsVal) :
    Except String String :=
  if ok then
    match body with
    | Except.error e => Except.error e
    | Except.ok d => Except.ok (stringify d)
  else Except.error ("Error: " ++ natStr code)

/-- Embedding of the promise chain of App.tsx lines 10 to 16: the `catch`
handler turns every rejection into the status string "error: " followed by
`String(e)`, so the chain always produces a status value and never lets an
exception escape. -/
def statusAfterSettle (f : FetchOutcome) : String :=
  match f with
  | FetchOutcome.reject e => "error: " ++ e
  | FetchOutcome.resolve ok code body =>
      match thenHandler ok code body with
      | Except.ok s => s
      | Except.error e => "error: " ++ e

/-! Concrete sample inputs used by witnesses and counterexamples. -/

/-- A commit adding two files. -/
def cAB : Commit :=
  ⟨"c1", "X", 0, [⟨"a.py", ChangeKind.added, 3, 0⟩, ⟨"b.py", ChangeKind.added, 2, 0⟩], []⟩

/-- A commit modifying one file. -/
def cA2 : Commit :=
  ⟨"c2", "Y", 0, [⟨"a.py", ChangeKind.modified, 1, 1⟩], ["c1"]⟩

/-- A two-commit sample history. -/
def histW : List Commit := [cAB, cA2]

/-- An ownership store with two equal-score authors on one file. -/
def ce6own : List OwnershipEntry :=
  [⟨"f.py", "X", 1, 0, 0⟩, ⟨"f.py", "Y", 1, 0, 0⟩]

/-- An ownership store holding history for a file about to be renamed. -/
def o5 : List OwnershipEntry := [⟨"old.py", "X", 3, 0, 0⟩]

/-- A rename change moving old.py to new.py while editing it. -/
def fc5 : FileChange := ⟨"new.py", ChangeKind.renamedFrom "old.py", 2, 0⟩

/-- A persisted state whose checkpoint names a commit absent from history. -/
def p7 : PersistedState := ⟨[], [], [], [], some ⟨"r", "gone", 1, 0⟩⟩

/-- A plain additive file change touching five lines. -/
def fc3 : FileChange := ⟨"a.py", ChangeKind.added, 3, 2⟩

/-- Ownership keys are pairwise distinct: at most one record per
(file, author) pair, the shape every reachable ownership store has. -/
def OwnKeys (o : List OwnershipEntry) : Prop :=
  (o.map (fun e => (e.file, e.author))).Nodup

instance (o : List OwnershipEntry) : Decidable (OwnKeys o) := by
  unfold OwnKeys; infer_instance

/-! Helper lemmas on the ownership store. -/

theorem ownScore_addScore_self (o : List OwnershipEntry) (f a : String) (w : ℚ) (t : Nat) :
    ownScore (addScore o f a w t) f a = ownScore o f a + w := by
  induction o with
  | nil => simp [addScore, ownScore]
  | cons e rest ih =>
      by_cases h : e.file = f ∧ e.author = a
      · simp [addScore, ownScore, h, h.1, h.2]
      · simp only [addScore, if_neg h, ownScore, ih]

theorem ownScore_addScore_other (o : List OwnershipEntry) (f a f2 a2 : String) (w : ℚ)
    (t : Nat) (h : ¬(f2 = f ∧ a2 = a)) :
    ownScore (addScore o f a w t) f2 a2 = ownScore o f2 a2 := by
  induction o with
  | nil =>
      have h2 : ¬(f = f2 ∧ a = a2) := fun hc => h ⟨hc.1.symm, hc.2.symm⟩
      simp [addScore, ownScore, h2]
  | cons e rest ih =>
      by_cases hm : e.file = f ∧ e.author = a
      · have h2 : ¬(e.file = f2 ∧ e.author = a2) := by
          rintro ⟨hf, ha⟩; exact h ⟨hf ▸ hm.1 ▸ rfl, ha ▸ hm.2 ▸ rfl⟩
        simp only [addScore, if_pos hm, ownScore]
        rw [if_neg (by simpa using h2), if_neg h2]
      · by_cases h2 : e.file = f2 ∧ e.author = a2
        · simp only [addScore, if_neg hm, ownScore, if_pos h2]
        · simp only [addScore, if_neg hm, ownScore, if_neg h2, ih]

theorem ownScore_insertEntry_self (l : List OwnershipEntry) (e : OwnershipEntry) :
    ownScore (insertEntry l e) e.file e.author = ownScore l e.file e.author + e.score := by
  induction l with
  | nil => simp [insertEntry, ownScore]
  | cons x rest ih =>
      by_cases h : x.file = e.file ∧ x.author = e.author
      · simp [insertEntry, ownScore, h, h.1, h.2]
      · simp only [insertEntry, if_neg h, ownScore, if_neg h, ih]

theorem ownScore_insertEntry_other (l : List OwnershipEntry) (e : OwnershipEntry)
    (f a : String) (h : ¬(f = e.file ∧ a = e.author)) :
    ownScore (insertEntry l e) f a = ownScore l f a := by
  induction l with
  | nil =>
      have h2 : ¬(e.file = f ∧ e.author = a) := fun hc => h ⟨hc.1.symm, hc.2.symm⟩
      simp [insertEntry, ownScore, h2]
  | cons x rest ih =>
      by_cases hm : x.file = e.file ∧ x.author = e.author
      · have h2 : ¬(x.file = f ∧ x.author = a) := by
          rintro ⟨hf, ha⟩; exact h ⟨hf ▸ hm.1 ▸ rfl, ha ▸ hm.2 ▸ rfl⟩
        simp only [insertEntry, if_pos hm, ownScore]
        rw [if_neg (by simpa using h2), if_neg h2]
      · by_cases h2 : x.file = f ∧ x.author = a
        · simp only [insertEntry, if_neg hm, ownScore, if_pos h2]
        · simp only [insertEntry, if_neg hm, ownScore, if_neg h2, ih]

theorem ownScore_eq_zero_of_no_file (l : List OwnershipEntry) (f a : String)
    (h : ∀ e ∈ l, e.file ≠ f) : ownScore l f a = 0 := by
  induction l with
  | nil => rfl
  | cons e rest ih =>
      have : ¬(e.file = f ∧ e.author = a) := fun hc => h e (by simp) hc.1
      simp only [ownScore, if_neg this]
      exact ih (fun x hx => h x (by simp [hx]))

theorem ownScore_eq_zero_of_no_author (l : List OwnershipEntry) (f a : String)
    (h : ∀ e ∈ l, e.author ≠ a) : ownScore l f a = 0 := by
  induction l with
  | nil => rfl
  | cons e rest ih =>
      have : ¬(e.file = f ∧ e.author = a) := fun hc => h e (by simp) hc.2
      simp only [ownScore, if_neg this]
      exact ih (fun x hx => h x (by simp [hx]))

theorem ownScore_filter_file (l : List OwnershipEntry) (f a : String) :
    ownScore (l.filter (fun e => e.file == f)) f a = ownScore l f a := by
  induction l with
  | nil => rfl
  | cons e rest ih =>
      by_cases hf : e.file = f
      · simp only [List.filter_cons, hf, beq_self_eq_true, ite_true, ownScore, ih]
      · have : ¬(e.file = f ∧ e.author = a) := fun hc => hf hc.1
        simp only [List.filter_cons, beq_eq_false_iff_ne.mpr hf, Bool.false_eq_true,
          ite_false, ownScore, if_neg this, ih]

theorem ownScore_moveFile (l : List OwnershipEntry) (oldP newP a : String)
    (h : ∀ e ∈ l, e.file = oldP) :
    ownScore (l.map (fun e => { e with file := newP })) newP a = ownScore l oldP a := by
  induction l with
  | nil => rfl
  | cons e rest ih =>
      have hf : e.file = oldP := h e (by simp)
      by_cases ha : e.author = a
      · simp [ownScore, hf, ha]
      · simp only [List.map_cons, ownScore, ha, and_false, if_false]
        exact ih (fun x hx => h x (by simp [hx]))

theorem ownScore_foldl_insert (ms : List OwnershipEntry) (acc : List OwnershipEntry)
    (fP a : String) (hf : ∀ e ∈ ms, e.file = fP)
    (hnd : (ms.map OwnershipEntry.author).Nodup) :
    ownScore (List.foldl insertEntry acc ms) fP a = ownScore acc fP a + ownScore ms fP a := by
  induction ms generalizing acc with
  | nil => simp [ownScore]
  | cons e rest ih =>
      have hef : e.file = fP := hf e (by simp)
      have hndc : (e.author :: rest.map OwnershipEntry.author).Nodup := by simpa using hnd
      have hnd2 : (rest.map OwnershipEntry.author).Nodup := (List.nodup_cons.mp hndc).2
      rw [List.foldl_cons, ih _ (fun x hx => hf x (by simp [hx])) hnd2]
      by_cases ha : e.author = a
      · have hnotin : ∀ x ∈ rest, x.author ≠ a := by
          intro x hx hxa
          exact (List.nodup_cons.mp hndc).1
            (by rw [ha, ← hxa]; exact List.mem_map_of_mem _ hx)
        have hself : ownScore (insertEntry acc e) fP a = ownScore acc fP a + e.score := by
          have h0 := ownScore_insertEntry_self acc e
          rw [hef, ha] at h0; exact h0
        rw [hself, ownScore_eq_zero_of_no_author rest fP a hnotin]
        simp [ownScore, hef, ha]
      · have hother : ownScore (insertEntry acc e) fP a = ownScore acc fP a :=
          ownScore_insertEntry_other acc e fP a (fun hc => ha hc.2.symm)
        rw [hother]
        have : ¬(e.file = fP ∧ e.author = a) := fun hc => ha hc.2
        simp [ownScore, this, add_assoc]

theorem renameMove_score (o : List OwnershipEntry) (oldP newP a : String)
    (hkeys : OwnKeys o) (hfresh : ∀ e ∈ o, e.file ≠ newP) :
    ownScore (renameMove o oldP newP) newP a = ownScore o oldP a := by
  unfold renameMove
  have hmf : ∀ e ∈ (o.filter (fun e => e.file == oldP)).map
      (fun e => { e with file := newP }), e.file = newP := by
    intro e he
    rcases List.mem_map.mp he with ⟨x, _, rfl⟩
    rfl
  have hfilt : ∀ e ∈ o.filter (fun e => e.file == oldP), e.file = oldP := by
    intro e he
    exact eq_of_beq (List.mem_filter.mp he).2
  have hknd : ((o.filter (fun e => e.file == oldP)).map
      (fun e => (e.file, e.author))).Nodup :=
    List.Nodup.sublist (List.Sublist.map _ (List.filter_sublist o)) hkeys
  have hand : (((o.filter (fun e => e.file == oldP)).map
      (fun e => { e with file := newP })).map OwnershipEntry.author).Nodup := by
    rw [List.map_map]
    have heq : ((o.filter (fun e => e.file == oldP)).map
        (OwnershipEntry.author ∘ fun e => { e with file := newP }))
        = ((o.filter (fun e => e.file == oldP)).map
            (fun e => (e.file, e.author))).map Prod.snd := by
      rw [List.map_map]; rfl
    rw [heq]
    refine List.Nodup.map_on ?_ hknd
    intro x hx y hy hxy
    rcases List.mem_map.mp hx with ⟨ex, hex, rfl⟩
    rcases List.mem_map.mp hy with ⟨ey, hey, rfl⟩
    have h1 : ex.file = oldP := hfilt ex hex
    have h2 : ey.file = oldP := hfilt ey hey
    simp only at hxy
    exact Prod.ext (by rw [h1, h2]) hxy
  have hrest0 : ownScore (o.filter (fun e => e.file != oldP)) newP a = 0 := by
    refine ownScore_eq_zero_of_no_file _ _ _ ?_
    intro e he
    exact hfresh e (List.mem_of_mem_filter he)
  rw [ownScore_foldl_insert _ _ newP a hmf hand, hrest0, zero_add,
    ownScore_moveFile _ oldP newP a hfilt]
  exact ownScore_filter_file o oldP a

/-- Claim C3: for every FileChange processed by the ownership accumulator,
the weight added to the (file, author) score is
(lines_added + lines_removed) * decay(now - commit_time), where decay is
exponential in the configured half-life (default 180 days) and now is the
single analysis-run timestamp threaded through the whole run. -/
theorem contribution_weight_formula (cfg : Config) (now t : Nat) (author : String)
    (o : List OwnershipEntry) (fc : FileChange) (hhl : 0 < cfg.halfLife) :
    ownScore (applyChangeOwn cfg now author t o fc) fc.path author
        = ownScore (preRenamed o fc) fc.path author
          + ((fc.linesAdded : ℚ) + (fc.linesRemoved : ℚ)) * decay cfg.halfLife (now - t)
    ∧ defaultConfig.halfLife = 180
    ∧ ∀ m : Nat, decay cfg.halfLife (cfg.halfLife * m) = (1/2 : ℚ) ^ m := by
  refine ⟨?_, rfl, ?_⟩
  · unfold applyChangeOwn contributionWeight
    exact ownScore_addScore_self _ _ _ _ _
  · intro m
    unfold decay
    rw [Nat.mul_div_cancel_left m hhl]

theorem contribution_weight_formula_witness :
    0 < defaultConfig.halfLife ∧
    (ownScore (applyChangeOwn defaultConfig 7 "X" 7 [] fc3) fc3.path "X"
        = ownScore (preRenamed [] fc3) fc3.path "X"
          + ((fc3.linesAdded : ℚ) + (fc3.linesRemoved : ℚ)) * decay defaultConfig.halfLife (7 - 7)
      ∧ defaultConfig.halfLife = 180
      ∧ ∀ m : Nat, decay defaultConfig.halfLife (defaultConfig.halfLife * m) = (1/2 : ℚ) ^ m) :=
  ⟨by decide, contribution_weight_formula defaultConfig 7 7 "X" [] fc3 (by decide)⟩

/-- Claim C5: a renamed-from change first moves the entire
author-to-score mapping of the prior path to the new path and only then applies the renaming
own delta of the renaming commit, so for every author the post-rename score under the new
path is the pre-rename score under the old path plus the delta landing on
the new path. -/
theorem rename_preserves_ownership (cfg : Config) (now t : Nat) (author a oldP : String)
    (o : List OwnershipEntry) (fc : FileChange)
    (hk : fc.kind = ChangeKind.renamedFrom oldP)
    (hkeys : OwnKeys o)
    (hfresh : ∀ e ∈ o, e.file ≠ fc.path) :
    ownScore (applyChangeOwn cfg now author t o fc) fc.path a
      = ownScore o oldP a
        + (if a = author then contributionWeight cfg now t fc else 0) := by
  have hpre : preRenamed o fc = renameMove o oldP fc.path := by
    unfold preRenamed; rw [hk]
  unfold applyChangeOwn
  by_cases ha : a = author
  · subst ha
    rw [ownScore_addScore_self, hpre, renameMove_score o oldP fc.path a hkeys hfresh,
      if_pos rfl]
  · rw [ownScore_addScore_other _ _ _ _ _ _ _ (fun hc => ha hc.2), hpre,
      renameMove_score o oldP fc.path a hkeys hfresh, if_neg ha, add_zero]

/-! Helper lemmas on the coupling store. -/

theorem commitFiles_nodup (c : Commit) : (commitFiles c).Nodup :=
  List.nodup_dedup _

theorem processCommits_nil (cfg : Config) (now : Nat) (s : EngineState) :
    processCommits cfg now s [] = s := rfl

theorem processCommits_cons (cfg : Config) (now : Nat) (s : EngineState) (c : Commit)
    (cs : List Commit) :
    processCommits cfg now s (c :: cs) = processCommits cfg now (stepCommit cfg now s c) cs :=
  rfl

theorem edgeWeightPair_bumpEdge (es : List CouplingEdge) (q p : String × String) (t : Nat) :
    edgeWeightPair (bumpEdge es q t) p
      = edgeWeightPair es p + (if p = q then 1 else 0) := by
  induction es with
  | nil =>
      by_cases h : p = q
      · subst h; simp [bumpEdge, edgeWeightPair]
      · have h2 : ¬(q.1 = p.1 ∧ q.2 = p.2) := by
          intro hc; exact h (Prod.ext hc.1.symm hc.2.symm)
        simp [bumpEdge, edgeWeightPair, h2, h]
  | cons e rest ih =>
      by_cases hm : e.fileA = q.1 ∧ e.fileB = q.2
      · by_cases hp : p = q
        · subst hp
          simp [bumpEdge, edgeWeightPair, hm, hm.1, hm.2]
        · have hq2 : ¬(q.1 = p.1 ∧ q.2 = p.2) := fun hc =>
            hp (Prod.ext hc.1.symm hc.2.symm)
          simp [bumpEdge, edgeWeightPair, hm, hq2, hp]
      · simp only [bumpEdge, if_neg hm]
        by_cases h2 : e.fileA = p.1 ∧ e.fileB = p.2
        · have hp : ¬ p = q := by
            intro hpq; subst hpq; exact hm h2
          simp [edgeWeightPair, h2, hp]
        · simp [edgeWeightPair, h2, ih]

theorem edgeWeightPair_foldl_bump (ps : List (String × String)) (es : List CouplingEdge)
    (p : String × String) (t : Nat) (hnd : ps.Nodup) :
    edgeWeightPair (ps.foldl (fun acc q => bumpEdge acc q t) es) p
      = edgeWeightPair es p + (if p ∈ ps then 1 else 0) := by
  induction ps generalizing es with
  | nil => simp
  | cons q ps ih =>
      rw [List.foldl_cons, ih _ (List.nodup_cons.mp hnd).2, edgeWeightPair_bumpEdge]
      by_cases hp : p = q
      · subst hp
        have hnotin : p ∉ ps := (List.nodup_cons.mp hnd).1
        simp [hnotin]
      · simp [hp, List.mem_cons]

theorem edgeWeightPair_foldl_bump_le (ps : List (String × String)) (es : List CouplingEdge)
    (p : String × String) (t : Nat) :
    edgeWeightPair es p ≤ edgeWeightPair (ps.foldl (fun acc q => bumpEdge acc q t) es) p := by
  induction ps generalizing es with
  | nil => exact le_refl _
  | cons q ps ih =>
      rw [List.foldl_cons]
      refine le_trans ?_ (ih _)
      rw [edgeWeightPair_bumpEdge]
      exact Nat.le_add_right _ _

theorem edgeWeightPair_applyCommitCoupling_le (cfg : Config) (es : List CouplingEdge)
    (c : Commit) (p : String × String) :
    edgeWeightPair es p ≤ edgeWeightPair (applyCommitCoupling cfg es c) p := by
  unfold applyCommitCoupling
  split
  · exact edgeWeightPair_foldl_bump_le _ _ _ _
  · exact le_refl _

theorem edgeWeightPair_processCommits_le (cfg : Config) (now : Nat) (s : EngineState)
    (cs : List Commit) (p : String × String) :
    edgeWeightPair s.coupling p
      ≤ edgeWeightPair (processCommits cfg now s cs).coupling p := by
  induction cs generalizing s with
  | nil => exact le_refl _
  | cons c cs ih =>
      rw [processCommits_cons]
      exact le_trans (edgeWeightPair_applyCommitCoupling_le cfg s.coupling c p)
        (ih (stepCommit cfg now s c))

theorem canonPair_lt (a b : String) (h : a ≠ b) :
    (canonPair a b).1 < (canonPair a b).2 := by
  unfold canonPair
  split
  · next h1 => exact h1
  · next h1 => exact lt_of_le_of_ne (le_of_not_lt h1) (Ne.symm h)

theorem canonPair_comm (a b : String) : canonPair a b = canonPair b a := by
  unfold canonPair
  rcases lt_trichotomy a b with h | h | h
  · rw [if_pos h, if_neg (lt_asymm h)]
  · subst h; simp
  · rw [if_neg (lt_asymm h), if_pos h]

theorem canonPair_mem_allPairs (l : List String) (a b : String)
    (ha : a ∈ l) (hb : b ∈ l) (hne : a ≠ b) : canonPair a b ∈ allPairs l := by
  induction l with
  | nil => cases ha
  | cons x xs ih =>
      rcases List.mem_cons.mp ha with rfl | ha2
      · have hb2 : b ∈ xs := by
          rcases List.mem_cons.mp hb with h2 | h2
          · exact absurd h2.symm hne
          · exact h2
        exact List.mem_append.mpr (Or.inl (List.mem_map_of_mem _ hb2))
      · rcases List.mem_cons.mp hb with rfl | hb2
        · rw [canonPair_comm]
          exact List.mem_append.mpr (Or.inl (List.mem_map_of_mem _ ha2))
        · exact List.mem_append.mpr (Or.inr (ih ha2 hb2))

theorem allPairs_mem (l : List String) (p : String × String) (hp : p ∈ allPairs l)
    (hnd : l.Nodup) : p.1 ∈ l ∧ p.2 ∈ l ∧ p.1 < p.2 := by
  induction l with
  | nil => cases hp
  | cons x xs ih =>
      rcases List.mem_append.mp hp with h | h
      · rcases List.mem_map.mp h with ⟨y, hy, rfl⟩
        have hxy : x ≠ y := fun hxx => (List.nodup_cons.mp hnd).1 (hxx ▸ hy)
        refine ⟨?_, ?_, canonPair_lt x y hxy⟩
        · unfold canonPair
          split
          · exact List.mem_cons_self _ _
          · exact List.mem_cons_of_mem _ hy
        · unfold canonPair
          split
          · exact List.mem_cons_of_mem _ hy
          · exact List.mem_cons_self _ _
      · have h2 := ih h (List.nodup_cons.mp hnd).2
        exact ⟨List.mem_cons_of_mem _ h2.1, List.mem_cons_of_mem _ h2.2.1, h2.2.2⟩

theorem canonPair_inj (x y z : String) (hxy : x ≠ y) (hxz : x ≠ z)
    (h : canonPair x y = canonPair x z) : y = z := by
  unfold canonPair at h
  split at h <;> split at h <;> simp_all

theorem allPairs_nodup (l : List String) (hnd : l.Nodup) : (allPairs l).Nodup := by
  induction l with
  | nil => exact List.nodup_nil
  | cons x xs ih =>
      have hx : x ∉ xs := (List.nodup_cons.mp hnd).1
      have hxs : xs.Nodup := (List.nodup_cons.mp hnd).2
      rw [show allPairs (x :: xs) = xs.map (canonPair x) ++ allPairs xs from rfl]
      refine List.Nodup.append ?_ (ih hxs) ?_
      · refine List.Nodup.map_on ?_ hxs
        intro y hy z hz hyz
        exact canonPair_inj x y z (fun h => hx (h ▸ hy)) (fun h => hx (h ▸ hz)) hyz
      · intro p hp1 hp2
        rcases List.mem_map.mp hp1 with ⟨y, hy, rfl⟩
        have h2 := allPairs_mem xs _ hp2 hxs
        by_cases hlt : x < y
        · have hfst : (canonPair x y).1 = x := by unfold canonPair; rw [if_pos hlt]
          exact hx (hfst ▸ h2.1)
        · have hsnd : (canonPair x y).2 = x := by unfold canonPair; rw [if_neg hlt]
          exact hx (hsnd ▸ h2.2.1)

theorem bumpEdge_mem (es : List CouplingEdge) (q : String × String) (t : Nat)
    (e : CouplingEdge) (he : e ∈ bumpEdge es q t) :
    (e.fileA, e.fileB) = q
      ∨ ∃ e0 ∈ es, e0.fileA = e.fileA ∧ e0.fileB = e.fileB := by
  induction es with
  | nil =>
      simp only [bumpEdge, List.mem_singleton] at he
      subst he; exact Or.inl rfl
  | cons x rest ih =>
      by_cases hm : x.fileA = q.1 ∧ x.fileB = q.2
      · simp only [bumpEdge, if_pos hm] at he
        rcases List.mem_cons.mp he with rfl | h2
        · exact Or.inl (Prod.ext hm.1 hm.2)
        · exact Or.inr ⟨e, List.mem_cons_of_mem _ h2, rfl, rfl⟩
      · simp only [bumpEdge, if_neg hm] at he
        rcases List.mem_cons.mp he with rfl | h2
        · exact Or.inr ⟨e, List.mem_cons_self _ _, rfl, rfl⟩
        · rcases ih h2 with h | ⟨e0, he0, hAB⟩
          · exact Or.inl h
          · exact Or.inr ⟨e0, List.mem_cons_of_mem _ he0, hAB⟩

theorem foldl_bump_mem (ps : List (String × String)) (es : List CouplingEdge) (t : Nat)
    (e : CouplingEdge) (he : e ∈ ps.foldl (fun acc q => bumpEdge acc q t) es) :
    (e.fileA, e.fileB) ∈ ps
      ∨ ∃ e0 ∈ es, e0.fileA = e.fileA ∧ e0.fileB = e.fileB := by
  induction ps generalizing es with
  | nil => exact Or.inr ⟨e, he, rfl, rfl⟩
  | cons q ps ih =>
      rw [List.foldl_cons] at he
      rcases ih _ he with h | ⟨e0, he0, hAB⟩
      · exact Or.inl (List.mem_cons_of_mem _ h)
      · rcases bumpEdge_mem es q t e0 he0 with h | ⟨e1, he1, hAB2⟩
        · refine Or.inl ?_
          have : (e.fileA, e.fileB) = q := by rw [← hAB.1, ← hAB.2]; exact h
          rw [this]
          exact List.mem_cons_self _ _
        · exact Or.inr ⟨e1, he1, hAB2.1.trans hAB.1, hAB2.2.trans hAB.2⟩

theorem applyCommitCoupling_mem (cfg : Config) (es : List CouplingEdge) (c : Commit)
    (e : CouplingEdge) (he : e ∈ applyCommitCoupling cfg es c) :
    (e.fileA, e.fileB) ∈ allPairs (commitFiles c)
      ∨ ∃ e0 ∈ es, e0.fileA = e.fileA ∧ e0.fileB = e.fileB := by
  unfold applyCommitCoupling at he
  split at he
  · exact foldl_bump_mem _ _ _ _ he
  · exact Or.inr ⟨e, he, rfl, rfl⟩

theorem processCommits_mem (cfg : Config) (now : Nat) (cs : List Commit) (s : EngineState)
    (e : CouplingEdge) (he : e ∈ (processCommits cfg now s cs).coupling) :
    (∃ c ∈ cs, (e.fileA, e.fileB) ∈ allPairs (commitFiles c))
      ∨ ∃ e0 ∈ s.coupling, e0.fileA = e.fileA ∧ e0.fileB = e.fileB := by
  induction cs generalizing s with
  | nil => exact Or.inr ⟨e, he, rfl, rfl⟩
  | cons c cs ih =>
      rw [processCommits_cons] at he
      rcases ih (stepCommit cfg now s c) he with ⟨c2, hc2, hp⟩ | ⟨e0, he0, hAB⟩
      · exact Or.inl ⟨c2, List.mem_cons_of_mem _ hc2, hp⟩
      · rcases applyCommitCoupling_mem cfg s.coupling c e0 he0 with h | ⟨e1, he1, hAB2⟩
        · refine Or.inl ⟨c, List.mem_cons_self _ _, ?_⟩
          rw [← hAB.1, ← hAB.2]; exact h
        · exact Or.inr ⟨e1, he1, hAB2.1.trans hAB.1, hAB2.2.trans hAB.2⟩

/-- Claim C8: in every state reachable from scratch, each coupling edge is
stored in the single canonical orientation (fileA lexicographically below
fileB, so no duplicate orientation exists) and only exists because its two
files appeared together in the change set of some processed commit; and within a
run edge weights never decrease (the model has no decay pass, so weights are
only ever incremented). -/
theorem coupling_edge_invariants (cfg : Config) (now : Nat) (cs : List Commit) :
    (∀ e ∈ (processCommits cfg now initState cs).coupling,
        e.fileA < e.fileB
          ∧ ∃ c ∈ cs, e.fileA ∈ commitFiles c ∧ e.fileB ∈ commitFiles c)
    ∧ ∀ (s : EngineState) (ds : List Commit) (a b : String),
        edgeWeight s.coupling a b
          ≤ edgeWeight (processCommits cfg now s ds).coupling a b := by
  constructor
  · intro e he
    rcases processCommits_mem cfg now cs initState e he with ⟨c, hc, hp⟩ | ⟨e0, he0, _⟩
    · have h2 := allPairs_mem (commitFiles c) _ hp (List.nodup_dedup _)
      exact ⟨h2.2.2, c, hc, h2.1, h2.2.1⟩
    · cases he0
  · intro s ds a b
    exact edgeWeightPair_processCommits_le cfg now s ds (canonPair a b)

theorem coupling_edge_invariants_witness :
    edgeWeight initState.coupling "a.py" "b.py"
      ≤ edgeWeight (processCommits defaultConfig 0 initState histW).coupling "a.py" "b.py" :=
  (coupling_edge_invariants defaultConfig 0 histW).2 initState histW "a.py" "b.py"

/-- Claim C4: a commit whose change set exceeds the large-commit ceiling
(default 50) contributes no coupling edges while its file changes still all
feed ownership; a single-file commit contributes no edges; and a commit with
between two and ceiling-many changed files increments the edge weight of
every unordered pair of distinct changed files by exactly one. -/
theorem coupling_commit_size_policy (cfg : Config) (now : Nat) (s : EngineState) (c : Commit) :
    ((commitFiles c).length > cfg.largeCommitCeiling →
        (stepCommit cfg now s c).coupling = s.coupling)
    ∧ (stepCommit cfg now s c).ownership = applyCommitOwnership cfg now s.ownership c
    ∧ ((commitFiles c).length = 1 → (stepCommit cfg now s c).coupling = s.coupling)
    ∧ (2 ≤ (commitFiles c).length → (commitFiles c).length ≤ cfg.largeCommitCeiling →
        ∀ a b, a ∈ commitFiles c → b ∈ commitFiles c → a ≠ b →
          edgeWeight (stepCommit cfg now s c).coupling a b
            = edgeWeight s.coupling a b + 1)
    ∧ defaultConfig.largeCommitCeiling = 50 := by
  refine ⟨?_, rfl, ?_, ?_, rfl⟩
  · intro h
    show applyCommitCoupling cfg s.coupling c = s.coupling
    unfold applyCommitCoupling
    rw [if_neg]
    rintro ⟨_, h2⟩
    omega
  · intro h
    show applyCommitCoupling cfg s.coupling c = s.coupling
    unfold applyCommitCoupling
    rw [if_neg]
    rintro ⟨h2, _⟩
    omega
  · intro h2 hceil a b ha hb hne
    show edgeWeight (applyCommitCoupling cfg s.coupling c) a b = _
    unfold applyCommitCoupling edgeWeight
    rw [if_pos ⟨h2, hceil⟩,
      edgeWeightPair_foldl_bump _ _ _ _ (allPairs_nodup _ (commitFiles_nodup c)),
      if_pos (canonPair_mem_allPairs _ a b ha hb hne)]

theorem coupling_commit_size_policy_witness :
    (2 ≤ (commitFiles cAB).length
      ∧ (commitFiles cAB).length ≤ defaultConfig.largeCommitCeiling
      ∧ "a.py" ∈ commitFiles cAB ∧ "b.py" ∈ commitFiles cAB ∧ "a.py" ≠ "b.py")
    ∧ edgeWeight (stepCommit defaultConfig 0 initState cAB).coupling "a.py" "b.py"
        = edgeWeight initState.coupling "a.py" "b.py" + 1 :=
  ⟨⟨by decide, by decide, by decide, by decide, by decide⟩,
    (coupling_commit_size_policy defaultConfig 0 initState cAB).2.2.2.1 (by decide) (by decide)
      "a.py" "b.py" (by decide) (by decide) (by decide)⟩

theorem rename_preserves_ownership_witness :
    (fc5.kind = ChangeKind.renamedFrom "old.py" ∧ OwnKeys o5 ∧
      (∀ e ∈ o5, e.file ≠ fc5.path)) ∧
    ownScore (applyChangeOwn defaultConfig 0 "Y" 0 o5 fc5) fc5.path "X"
      = ownScore o5 "old.py" "X"
        + (if "X" = "Y" then contributionWeight defaultConfig 0 0 fc5 else 0) :=
  ⟨⟨by decide, by decide, by decide⟩,
    rename_preserves_ownership defaultConfig 0 0 "Y" "X" "old.py" o5 fc5
      (by decide) (by decide) (by decide)⟩

/-! Walker and engine-run lemmas. -/

theorem walkAfter_eq_none (l : List Commit) (cid : String)
    (h : cid ∉ l.map Commit.id) : walkAfter l cid = none := by
  induction l with
  | nil => rfl
  | cons c rest ih =>
      simp only [List.map_cons, List.mem_cons, not_or] at h
      have h1 : ¬ c.id = cid := fun hc => h.1 hc.symm
      simp only [walkAfter, if_neg h1]
      exact ih h.2

theorem walkAfter_getElem (l : List Commit) (j : Nat) (hj : j < l.length)
    (hnd : (l.map Commit.id).Nodup) :
    walkAfter l (l.get ⟨j, hj⟩).id = some (l.drop (j + 1)) := by
  induction l generalizing j with
  | nil => exact absurd hj (Nat.not_lt_zero j)
  | cons c rest ih =>
      have hnd2 : (c.id :: rest.map Commit.id).Nodup := by simpa using hnd
      cases j with
      | zero => simp [walkAfter]
      | succ i =>
          have hi : i < rest.length := Nat.lt_of_succ_lt_succ hj
          have hmem : (rest.get ⟨i, hi⟩).id ∈ rest.map Commit.id :=
            List.mem_map_of_mem _ (rest.get_mem _ _)
          have hne : ¬ c.id = (rest.get ⟨i, hi⟩).id := fun hc =>
            (List.nodup_cons.mp hnd2).1 (hc ▸ hmem)
          simp only [List.get_cons_succ, walkAfter, if_neg hne, List.drop_succ_cons]
          exact ih i hi (List.nodup_cons.mp hnd2).2

theorem getLast?_take_succ (cs : List Commit) (j : Nat) (hj : j < cs.length) :
    (cs.take (j + 1)).getLast? = some (cs.get ⟨j, hj⟩) := by
  rw [List.getLast?_eq_getElem?]
  have hlen : (cs.take (j + 1)).length = j + 1 := by rw [List.length_take]; omega
  rw [hlen]
  show (cs.take (j + 1))[j]? = _
  rw [List.getElem?_take, if_pos (Nat.lt_succ_self j), List.getElem?_eq_getElem hj]
  simp [List.get_eq_getElem]

theorem processCommits_append (cfg : Config) (now : Nat) (s : EngineState)
    (l1 l2 : List Commit) :
    processCommits cfg now s (l1 ++ l2)
      = processCommits cfg now (processCommits cfg now s l1) l2 :=
  List.foldl_append _ _ _ _

theorem advanceCheckpoint_split (repo : String) (now : Nat) (cs : List Commit) (j : Nat)
    (hj : j < cs.length) :
    advanceCheckpoint repo now (some ⟨repo, (cs.get ⟨j, hj⟩).id, j + 1, now⟩)
        (cs.drop (j + 1))
      = advanceCheckpoint repo now none cs := by
  by_cases hend : j + 1 = cs.length
  · rw [show cs.drop (j + 1) = [] from by rw [hend]; exact List.drop_length cs]
    unfold advanceCheckpoint
    rw [List.getLast?_eq_getElem? cs, show cs.length - 1 = j from by omega,
      List.getElem?_eq_getElem hj]
    simp [List.get_eq_getElem]
    omega
  · have hlt : j + 1 < cs.length := by omega
    unfold advanceCheckpoint
    rw [List.getLast?_eq_getElem? (cs.drop (j + 1)), List.getLast?_eq_getElem? cs,
      List.length_drop, List.getElem?_drop,
      show j + 1 + (cs.length - (j + 1) - 1) = cs.length - 1 from by omega,
      List.getElem?_eq_getElem (show cs.length - 1 < cs.length from by omega)]
    simp [List.length_drop]
    omega

/-- Claim C7: when the starting checkpoint commit cannot be resolved by the
commit-log provider, the engine run returns the HistoryUnavailable error to
the caller, performs no retry, and leaves every piece of the prior persisted
state - ownership, coupling, bus factors, and the checkpoint - unchanged. -/
theorem history_unavailable_atomic (repo : String) (cfg : Config) (now : Nat)
    (history : List Commit) (p : PersistedState) (cp : Checkpoint)
    (hcp : p.checkpoint = some cp)
    (hm : cp.lastCommit ∉ history.map Commit.id) :
    runEngine repo cfg now history p = (p, some EngineError.HistoryUnavailable) := by
  unfold runEngine
  rw [hcp]
  simp [walkFrom, walkAfter_eq_none history cp.lastCommit hm]

theorem history_unavailable_atomic_witness :
    (p7.checkpoint = some ⟨"r", "gone", 1, 0⟩
      ∧ ("gone" ∉ histW.map Commit.id))
    ∧ runEngine "r" defaultConfig 0 histW p7
        = (p7, some EngineError.HistoryUnavailable) :=
  ⟨⟨rfl, by decide⟩,
    history_unavailable_atomic "r" defaultConfig 0 histW p7 ⟨"r", "gone", 1, 0⟩ rfl (by decide)⟩

/-- Claim C1: the engine run is a pure function of the input history and the
fixed decay reference time, so two from-scratch runs over identical input
produce identical ownership-entry, coupling-edge, and bus-factor-result
sets. -/
theorem engine_deterministic (repo : String) (cfg : Config) (now : Nat)
    (h1 h2 : List Commit) (h : h1 = h2) :
    (runEngine repo cfg now h1 emptyPersisted).1.ownership
        = (runEngine repo cfg now h2 emptyPersisted).1.ownership
    ∧ (runEngine repo cfg now h1 emptyPersisted).1.coupling
        = (runEngine repo cfg now h2 emptyPersisted).1.coupling
    ∧ (runEngine repo cfg now h1 emptyPersisted).1.busFactors
        = (runEngine repo cfg now h2 emptyPersisted).1.busFactors := by
  subst h
  exact ⟨rfl, rfl, rfl⟩

theorem engine_deterministic_witness :
    histW = histW ∧
    ((runEngine "r" defaultConfig 0 histW emptyPersisted).1.ownership
        = (runEngine "r" defaultConfig 0 histW emptyPersisted).1.ownership
      ∧ (runEngine "r" defaultConfig 0 histW emptyPersisted).1.coupling
          = (runEngine "r" defaultConfig 0 histW emptyPersisted).1.coupling
      ∧ (runEngine "r" defaultConfig 0 histW emptyPersisted).1.busFactors
          = (runEngine "r" defaultConfig 0 histW emptyPersisted).1.busFactors) :=
  ⟨rfl, engine_deterministic "r" defaultConfig 0 histW histW rfl⟩

/-- Claim C2: processing commits 1..k from scratch, checkpointing, and then
resuming over the full history (which walks exactly commits k+1..n) ends in
the same persisted state - ownership, coupling, bus factors, and advanced
checkpoint - as one full run over commits 1..n, given the same decay
reference time now in both executions. -/
theorem incremental_equals_full (repo : String) (cfg : Config) (now : Nat)
    (cs : List Commit) (k : Nat) (hk1 : 1 ≤ k) (hk2 : k ≤ cs.length)
    (hnd : (cs.map Commit.id).Nodup) :
    (runEngine repo cfg now cs (runEngine repo cfg now (cs.take k) emptyPersisted).1).1
      = (runEngine repo cfg now cs emptyPersisted).1 := by
  obtain ⟨j, rfl⟩ : ∃ j, k = j + 1 := ⟨k - 1, by omega⟩
  have hj : j < cs.length := by omega
  have hp1 : (runEngine repo cfg now (cs.take (j + 1)) emptyPersisted).1
      = { ownership := (processCommits cfg now initState (cs.take (j + 1))).ownership
          coupling := (processCommits cfg now initState (cs.take (j + 1))).coupling
          busFactors := busFactorResults cfg
            (processCommits cfg now initState (cs.take (j + 1))).ownership
          inactive := (processCommits cfg now initState (cs.take (j + 1))).inactive
          checkpoint := advanceCheckpoint repo now none (cs.take (j + 1)) } := rfl
  have hcpt : advanceCheckpoint repo now none (cs.take (j + 1))
      = some ⟨repo, (cs.get ⟨j, hj⟩).id, j + 1, now⟩ := by
    unfold advanceCheckpoint
    rw [getLast?_take_succ cs j hj]
    have hlen : (cs.take (j + 1)).length = j + 1 := by
      rw [List.length_take]; omega
    simp [hlen]
  have hwalk : walkFrom cs (some (cs.get ⟨j, hj⟩).id) = Except.ok (cs.drop (j + 1)) := by
    simp only [walkFrom]
    rw [walkAfter_getElem cs j hj hnd]
  rw [hp1, hcpt]
  have heta : (⟨(processCommits cfg now initState (cs.take (j + 1))).ownership,
      (processCommits cfg now initState (cs.take (j + 1))).coupling,
      (processCommits cfg now initState (cs.take (j + 1))).inactive⟩ : EngineState)
      = processCommits cfg now initState (cs.take (j + 1)) := rfl
  have hL : (runEngine repo cfg now cs
      ({ ownership := (processCommits cfg now initState (cs.take (j + 1))).ownership
         coupling := (processCommits cfg now initState (cs.take (j + 1))).coupling
         busFactors := busFactorResults cfg
           (processCommits cfg now initState (cs.take (j + 1))).ownership
         inactive := (processCommits cfg now initState (cs.take (j + 1))).inactive
         checkpoint := some ⟨repo, (cs.get ⟨j, hj⟩).id, j + 1, now⟩ } : PersistedState)).1
      = { ownership := (processCommits cfg now
            (processCommits cfg now initState (cs.take (j + 1))) (cs.drop (j + 1))).ownership
          coupling := (processCommits cfg now
            (processCommits cfg now initState (cs.take (j + 1))) (cs.drop (j + 1))).coupling
          busFactors := busFactorResults cfg (processCommits cfg now
            (processCommits cfg now initState (cs.take (j + 1))) (cs.drop (j + 1))).ownership
          inactive := (processCommits cfg now
            (processCommits cfg now initState (cs.take (j + 1))) (cs.drop (j + 1))).inactive
          checkpoint := advanceCheckpoint repo now
            (some ⟨repo, (cs.get ⟨j, hj⟩).id, j + 1, now⟩) (cs.drop (j + 1)) } := by
    unfold runEngine
    rw [show (Option.map Checkpoint.lastCommit
        (some (⟨repo, (cs.get ⟨j, hj⟩).id, j + 1, now⟩ : Checkpoint))) =
        some (cs.get ⟨j, hj⟩).id from rfl, hwalk]
  rw [hL]
  have hsplit : processCommits cfg now
      (processCommits cfg now initState (cs.take (j + 1))) (cs.drop (j + 1))
      = processCommits cfg now initState cs := by
    rw [← processCommits_append, List.take_append_drop]
  have hR : (runEngine repo cfg now cs emptyPersisted).1
      = { ownership := (processCommits cfg now initState cs).ownership
          coupling := (processCommits cfg now initState cs).coupling
          busFactors := busFactorResults cfg (processCommits cfg now initState cs).ownership
          inactive := (processCommits cfg now initState cs).inactive
          checkpoint := advanceCheckpoint repo now none cs } := rfl
  rw [hR, hsplit, advanceCheckpoint_split repo now cs j hj]

theorem incremental_equals_full_witness :
    (1 ≤ 1 ∧ 1 ≤ histW.length ∧ (histW.map Commit.id).Nodup)
    ∧ (runEngine "r" defaultConfig 0 histW
          (runEngine "r" defaultConfig 0 (histW.take 1) emptyPersisted).1).1
        = (runEngine "r" defaultConfig 0 histW emptyPersisted).1 :=
  ⟨⟨by decide, by decide, by decide⟩,
    incremental_equals_full "r" defaultConfig 0 histW 1 (by decide) (by decide) (by decide)⟩

/-! Bus-factor lemmas. -/

theorem coverCount_spec (l : List ℚ) : ∀ need : ℚ, 0 < need → need ≤ l.sum →
    (∀ x ∈ l, 0 ≤ x) →
    need ≤ (l.take (coverCount need l)).sum
      ∧ ∀ i < coverCount need l, (l.take i).sum < need := by
  induction l with
  | nil =>
      intro need hpos hsum _
      simp only [List.sum_nil] at hsum
      linarith
  | cons s rest ih =>
      intro need hpos hsum hnn
      by_cases h : need ≤ s
      · have h1 : coverCount need (s :: rest) = 1 := by simp [coverCount, h]
        refine ⟨?_, ?_⟩
        · rw [h1, List.take_succ_cons, List.take_zero, List.sum_cons, List.sum_nil, add_zero]
          exact h
        · intro i hi
          rw [h1] at hi
          have hi0 : i = 0 := by omega
          subst hi0
          simpa using hpos
      · have hcc : coverCount need (s :: rest) = 1 + coverCount (need - s) rest := by
          simp [coverCount, h]
        have hs0 : 0 ≤ s := hnn s (by simp)
        have hlt : s < need := not_le.mp h
        have hpos2 : 0 < need - s := by linarith
        have hsum2 : need - s ≤ rest.sum := by
          rw [List.sum_cons] at hsum; linarith
        have hnn2 : ∀ x ∈ rest, 0 ≤ x := fun x hx => hnn x (by simp [hx])
        obtain ⟨ih1, ih2⟩ := ih (need - s) hpos2 hsum2 hnn2
        constructor
        · rw [hcc, Nat.add_comm 1 _, List.take_succ_cons, List.sum_cons]
          linarith
        · intro i hi
          cases i with
          | zero => simpa using hpos
          | succ i2 =>
              rw [List.take_succ_cons, List.sum_cons]
              rw [hcc] at hi
              have hi2 : i2 < coverCount (need - s) rest := by omega
              have := ih2 i2 hi2
              linarith

theorem rank_perm (es : List OwnershipEntry) : (rank es).Perm es :=
  List.perm_insertionSort rankRel es

theorem rank_scores_sum (es : List OwnershipEntry) :
    ((rank es).map OwnershipEntry.score).sum = (es.map OwnershipEntry.score).sum :=
  ((rank_perm es).map OwnershipEntry.score).sum_eq

/-- Claim C6 counterexample: under the algorithm the spec itself prescribes (smallest count
of top contributors whose cumulative share meets or exceeds the threshold),
a file with exactly two authors of equal positive scores at the default 50
percent threshold has bus factor 1, because the top contributor alone holds
exactly half the total, which already meets the threshold - not 2 as the
claim asserts. -/
theorem bus_factor_two_equal_counterexample :
    fileEntries ce6own "f.py" = [⟨"f.py", "X", 1, 0, 0⟩, ⟨"f.py", "Y", 1, 0, 0⟩]
    ∧ defaultConfig.threshold = 1/2
    ∧ busFactor defaultConfig ce6own "f.py" = 1
    ∧ ¬ busFactor defaultConfig ce6own "f.py" = 2 := by
  have hfe : fileEntries ce6own "f.py"
      = [⟨"f.py", "X", 1, 0, 0⟩, ⟨"f.py", "Y", 1, 0, 0⟩] := by decide
  have hbf : busFactor defaultConfig ce6own "f.py" = 1 := by
    unfold busFactor busFactorOf
    rw [hfe]
    have hrank : rank [(⟨"f.py", "X", 1, 0, 0⟩ : OwnershipEntry), ⟨"f.py", "Y", 1, 0, 0⟩]
        = [⟨"f.py", "X", 1, 0, 0⟩, ⟨"f.py", "Y", 1, 0, 0⟩] := by
      have hrel : rankRel (⟨"f.py", "X", 1, 0, 0⟩ : OwnershipEntry) ⟨"f.py", "Y", 1, 0, 0⟩ :=
        Or.inr ⟨rfl, le_refl 0⟩
      simp [rank, List.insertionSort, List.orderedInsert, hrel]
    rw [hrank]
    have hneed : defaultConfig.threshold
        * (([(⟨"f.py", "X", 1, 0, 0⟩ : OwnershipEntry),
            ⟨"f.py", "Y", 1, 0, 0⟩].map OwnershipEntry.score).sum) = 1 := by
      show (1/2 : ℚ) * ((1 : ℚ) + ((1 : ℚ) + 0)) = 1
      norm_num
    rw [hneed]
    simp [coverCount]
  exact ⟨hfe, rfl, hbf, by rw [hbf]; decide⟩

/-- Claim C6 (amended): a file with exactly one positively scoring author
has bus factor 1; a file with exactly two authors of equal positive scores
at a 50 percent threshold has bus factor 1 (the top contributor alone meets
the meets-or-exceeds test, amended from the claimed 2); and in general the
bus factor is the smallest count of top contributors - ranked by descending
score with ties broken by earliest contribution timestamp - whose cumulative
score meets or exceeds the threshold share of the total. -/
theorem bus_factor_spec (cfg : Config) (o : List OwnershipEntry) (f : String)
    (hth0 : 0 < cfg.threshold) (hth1 : cfg.threshold ≤ 1)
    (hnn : ∀ e ∈ fileEntries o f, 0 ≤ e.score) :
    (∀ e, fileEntries o f = [e] → 0 < e.score → busFactor cfg o f = 1)
    ∧ (∀ e1 e2, fileEntries o f = [e1, e2] → e1.score = e2.score → 0 < e1.score →
        cfg.threshold = 1/2 → busFactor cfg o f = 1)
    ∧ (0 < ((fileEntries o f).map OwnershipEntry.score).sum →
        cfg.threshold * ((fileEntries o f).map OwnershipEntry.score).sum
            ≤ (((rank (fileEntries o f)).map OwnershipEntry.score).take
                (busFactor cfg o f)).sum
          ∧ ∀ i < busFactor cfg o f,
              (((rank (fileEntries o f)).map OwnershipEntry.score).take i).sum
                < cfg.threshold * ((fileEntries o f).map OwnershipEntry.score).sum)
    ∧ List.Sorted rankRel (rank (fileEntries o f)) := by
  refine ⟨?_, ?_, ?_, ?_⟩
  · intro e he _
    unfold busFactor busFactorOf
    rw [he]
    have hrank : rank [e] = [e] := rfl
    rw [hrank]
    show coverCount (cfg.threshold * (e.score + 0)) (e.score :: []) = 1
    unfold coverCount
    split
    · rfl
    · rfl
  · intro e1 e2 he hsc hpos hth2
    unfold busFactor busFactorOf
    rw [he]
    have hneed : cfg.threshold * (([e1, e2].map OwnershipEntry.score).sum) = e1.score := by
      show cfg.threshold * (e1.score + (e2.score + 0)) = e1.score
      rw [hth2, ← hsc]
      ring
    have hord : rank [e1, e2] = [e1, e2] ∨ rank [e1, e2] = [e2, e1] := by
      by_cases hrel : rankRel e1 e2
      · left; simp [rank, List.insertionSort, List.orderedInsert, hrel]
      · right; simp [rank, List.insertionSort, List.orderedInsert, hrel]
    rcases hord with hr | hr
    · rw [hr, hneed]
      show coverCount e1.score (e1.score :: e2.score :: []) = 1
      unfold coverCount
      rw [if_pos (le_refl e1.score)]
    · rw [hr, hneed]
      show coverCount e1.score (e2.score :: e1.score :: []) = 1
      unfold coverCount
      rw [if_pos (le_of_eq hsc)]
  · intro htot
    have hsum : cfg.threshold * ((fileEntries o f).map OwnershipEntry.score).sum
        ≤ ((rank (fileEntries o f)).map OwnershipEntry.score).sum := by
      rw [rank_scores_sum]
      exact mul_le_of_le_one_left htot.le hth1
    have hnn2 : ∀ x ∈ (rank (fileEntries o f)).map OwnershipEntry.score, 0 ≤ x := by
      intro x hx
      rcases List.mem_map.mp hx with ⟨e, he, rfl⟩
      exact hnn e ((rank_perm (fileEntries o f)).mem_iff.mp he)
    exact coverCount_spec _ _ (mul_pos hth0 htot) hsum hnn2
  · exact List.sorted_insertionSort rankRel _

theorem bus_factor_spec_witness :
    (0 < defaultConfig.threshold ∧ defaultConfig.threshold ≤ 1
      ∧ ∀ e ∈ fileEntries ce6own "f.py", 0 ≤ e.score)
    ∧ (∀ e, fileEntries ce6own "f.py" = [e] → 0 < e.score →
        busFactor defaultConfig ce6own "f.py" = 1)
    ∧ (∀ e1 e2, fileEntries ce6own "f.py" = [e1, e2] → e1.score = e2.score →
        0 < e1.score → defaultConfig.threshold = 1/2 →
        busFactor defaultConfig ce6own "f.py" = 1)
    ∧ (0 < ((fileEntries ce6own "f.py").map OwnershipEntry.score).sum →
        defaultConfig.threshold * ((fileEntries ce6own "f.py").map OwnershipEntry.score).sum
            ≤ (((rank (fileEntries ce6own "f.py")).map OwnershipEntry.score).take
                (busFactor defaultConfig ce6own "f.py")).sum
          ∧ ∀ i < busFactor defaultConfig ce6own "f.py",
              (((rank (fileEntries ce6own "f.py")).map OwnershipEntry.score).take i).sum
                < defaultConfig.threshold
                    * ((fileEntries ce6own "f.py").map OwnershipEntry.score).sum)
    ∧ List.Sorted rankRel (rank (fileEntries ce6own "f.py")) := by
  have hth0 : (0 : ℚ) < defaultConfig.threshold := by norm_num [defaultConfig]
  have hth1 : defaultConfig.threshold ≤ 1 := by norm_num [defaultConfig]
  have hnn : ∀ e ∈ fileEntries ce6own "f.py", (0 : ℚ) ≤ e.score := by decide
  exact ⟨⟨hth0, hth1, hnn⟩, bus_factor_spec defaultConfig ce6own "f.py" hth0 hth1 hnn⟩

/-! Frontend lemmas and claims. -/

/-- Claim C9: with VITE_API_URL absent or falsy, apiBase is the literal
default http://localhost:8000, and so are the rendered backend URL, the
/health fetch target, and the API-docs link, on every render. -/
theorem apiBase_default (envVar : Option String)
    (h : envVar = none ∨ envVar = some "") :
    apiBase envVar = "http://localhost:8000"
    ∧ renderApp envVar
        = ⟨"http://localhost:8000", "http://localhost:8000/health",
            "http://localhost:8000/docs"⟩ := by
  rcases h with rfl | rfl
  · exact ⟨rfl, by decide⟩
  · exact ⟨rfl, by decide⟩

theorem apiBase_default_witness :
    ((none : Option String) = none ∨ (none : Option String) = some "")
    ∧ apiBase none = "http://localhost:8000"
    ∧ renderApp none
        = ⟨"http://localhost:8000", "http://localhost:8000/health",
            "http://localhost:8000/docs"⟩ :=
  ⟨Or.inl rfl, apiBase_default none (Or.inl rfl)⟩

theorem digitChar_ne (n : Nat) : digitChar n ≠ 'l' := by
  unfold digitChar
  split <;> decide

theorem natDigits_head (n : Nat) : ∃ c l, natDigits n = c :: l ∧ c ≠ 'l' := by
  induction n using Nat.strong_induction_on with
  | _ n ih =>
      rw [natDigits]
      split
      · exact ⟨digitChar n, [], rfl, digitChar_ne n⟩
      · next h =>
          obtain ⟨c, l, hcl, hc⟩ := ih (n / 10) (Nat.div_lt_self (by omega) (by omega))
          exact ⟨c, l ++ [digitChar (n % 10)], by rw [hcl]; rfl, hc⟩

theorem stringify_head (j : JsVal) :
    ∃ c l, (stringify j).data = c :: l ∧ c ≠ 'l' := by
  cases j with
  | null => exact ⟨'n', ['u', 'l', 'l'], by simp only [stringify], by decide⟩
  | bool b =>
      cases b with
      | false => exact ⟨'f', ['a', 'l', 's', 'e'], by simp only [stringify], by decide⟩
      | true => exact ⟨'t', ['r', 'u', 'e'], by simp only [stringify], by decide⟩
  | num n =>
      rcases n with m | m
      · obtain ⟨c, l, hcl, hc⟩ := natDigits_head m
        refine ⟨c, l, ?_, hc⟩
        simp only [stringify, intRepr]
        exact hcl
      · refine ⟨'-', natDigits (m + 1), ?_, by decide⟩
        simp only [stringify, intRepr]
  | str s =>
      refine ⟨'"', escapeStr s ++ ['"'], ?_, by decide⟩
      simp only [stringify]
  | arr xs =>
      refine ⟨'[', (stringifyArr xs).data ++ "]".data, ?_, by decide⟩
      simp only [stringify, String.data_append]
      rfl
  | obj fs =>
      refine ⟨'\x7b', (stringifyObj fs).data ++ "\x7d".data, ?_, by decide⟩
      simp only [stringify, String.data_append]
      rfl

theorem ne_loading_of_head (s : String) (c : Char) (l : List Char)
    (h : s.data = c :: l) (hc : c ≠ 'l') : s ≠ "loading..." := by
  intro heq
  rw [heq] at h
  have h3 : 'l' :: ('o' :: 'a' :: 'd' :: 'i' :: 'n' :: 'g' :: '.' :: '.' :: '.' :: [])
      = c :: l := h
  exact hc (List.cons.inj h3).1.symm

/-- Claim C10: for every settlement of the /health fetch - a rejected fetch,
a response with ok false, a JSON-parse rejection, or an ok response with a
parsed body - the catch handler yields a status string: the error paths set
a string beginning with error-colon followed by the string form of the error, the
success path sets exactly the JSON serialization of the body, no exception
escapes (the settled status is a total function of the outcome), and the
status never remains the initial loading placeholder. -/
theorem health_fetch_settles (f : FetchOutcome) :
    (∀ e, f = FetchOutcome.reject e → statusAfterSettle f = "error: " ++ e)
    ∧ (∀ code body, f = FetchOutcome.resolve false code body →
        statusAfterSettle f = "error: " ++ ("Error: " ++ natStr code))
    ∧ (∀ ok code e, f = FetchOutcome.resolve ok code (Except.error e) →
        ∃ s, statusAfterSettle f = "error: " ++ s)
    ∧ (∀ code d, f = FetchOutcome.resolve true code (Except.ok d) →
        statusAfterSettle f = stringify d)
    ∧ statusAfterSettle f ≠ "loading..." := by
  refine ⟨?_, ?_, ?_, ?_, ?_⟩
  · rintro e rfl; rfl
  · rintro code body rfl; rfl
  · rintro ok code e rfl
    cases ok
    · exact ⟨"Error: " ++ natStr code, rfl⟩
    · exact ⟨e, rfl⟩
  · rintro code d rfl; rfl
  · rcases f with e | ⟨ok, code, body⟩
    · refine ne_loading_of_head _ 'e' ("rror: ".data ++ e.data) ?_ (by decide)
      show ("error: " ++ e).data = _
      rw [String.data_append]
      rfl
    · cases ok with
      | false =>
          refine ne_loading_of_head _ 'e'
            ("rror: ".data ++ ("Error: " ++ natStr code).data) ?_ (by decide)
          show ("error: " ++ ("Error: " ++ natStr code)).data = _
          rw [String.data_append]
          rfl
      | true =>
          cases body with
          | error e =>
              refine ne_loading_of_head _ 'e' ("rror: ".data ++ e.data) ?_ (by decide)
              show ("error: " ++ e).data = _
              rw [String.data_append]
              rfl
          | ok d =>
              obtain ⟨c, l, hcl, hc⟩ := stringify_head d
              exact ne_loading_of_head _ c l hcl hc

theorem health_fetch_settles_witness :
    statusAfterSettle (FetchOutcome.reject "TypeError: Failed to fetch")
      = "error: " ++ "TypeError: Failed to fetch" :=
  (health_fetch_settles (FetchOutcome.reject "TypeError: Failed to fetch")).1 _ rfl

end ArchMap
